import Mathlib

/-!
Verification of the SynLogic circuit-evaluation engine
(`backend/app/logic.py`): gate evaluation semantics, the memoized
recursive resolver, and the truth-table driver.

Python data is embedded as follows:
* `Dict[str, int]` holding 0/1 truth values becomes an association list
  `List (String × Bool)` that preserves insertion order; assignment to an
  existing key overwrites in place, assignment to a fresh key appends
  (matching CPython dict semantics).
* The recursive `resolve` closure has no termination guarantee in Python
  (a cyclic circuit recurses forever).  The embedding threads an explicit
  fuel counter; exhausting the fuel yields the artificial error
  `LogicError.outOfFuel`, which stands for non-termination and corresponds
  to no Python exception.  Every other `LogicError` constructor corresponds
  to one `raise LogicEvaluationError(...)` site of the source.
* For observing memoization, the evaluation state carries a `log` of gate
  ids in the order their values were computed by `evaluate_gate`; the
  Python code has no such log, it is the standard instrumentation used to
  state "each gate is evaluated at most once".
-/

namespace SynLogic

/-- `Gate` dataclass: `id`, `type`, ordered `inputs` references. -/
structure Gate where
  id : String
  type : String
  inputs : List String
deriving DecidableEq, Repr

/-- The distinct failure modes of `LogicEvaluationError`, one constructor
per `raise` site of the source, plus `outOfFuel` marking exhausted fuel
(the embedding's stand-in for the unbounded recursion of a cyclic graph). -/
inductive LogicError where
  | invalidArity : LogicError
  | missingInput : LogicError
  | unsupportedGateKind : String → LogicError
  | unknownNode : String → LogicError
  | noInputsDeclared : LogicError
  | outOfFuel : LogicError
deriving DecidableEq, Repr

/-- Python dict lookup `d[k]` / `k in d` on the association-list model:
the first entry with the key (keys are unique when built by `dictInsert`). -/
def lookupVal : List (String × Bool) → String → Option Bool
  | [], _ => none
  | p :: ps, k => if p.1 = k then some p.2 else lookupVal ps k

/-- Python dict assignment `d[k] = v`: overwrite in place when the key is
present, append at the end when it is fresh. -/
def dictInsert : List (String × Bool) → String → Bool → List (String × Bool)
  | [], k, v => [(k, v)]
  | p :: ps, k, v => if p.1 = k then (k, v) :: ps else p :: dictInsert ps k v

/-- `str.upper()` on one character, restricted to ASCII (all recognized
gate kinds are ASCII strings). -/
def asciiUpper (c : Char) : Char :=
  if 97 ≤ c.toNat ∧ c.toNat ≤ 122 then Char.ofNat (c.toNat - 32) else c

/-- `gate_type.upper()` for ASCII strings. -/
def pyUpper (s : String) : String :=
  ⟨s.data.map asciiUpper⟩

/-- `evaluate_gate(gate_type, values)`: evaluate one gate on already
resolved boolean input values. -/
def evaluate_gate (gate_type : String) (values : List Bool) : Except LogicError Bool :=
  let gt := pyUpper gate_type
  if gt = "AND" then .ok (values.all (fun b => b))
  else if gt = "OR" then .ok (values.any (fun b => b))
  else if gt = "NOT" then
    match values with
    | [v] => .ok (!v)
    | _ => .error .invalidArity
  else if gt = "NAND" then .ok (!(values.all (fun b => b)))
  else if gt = "NOR" then .ok (!(values.any (fun b => b)))
  else if gt = "XOR" then .ok (decide (values.countP (fun b => b) % 2 = 1))
  else if gt = "OUTPUT" ∨ gt = "BUFFER" then
    match values.getLast? with
    | none => .error .missingInput
    | some v => .ok v
  else .error (.unsupportedGateKind gt)

/-- `gate_lookup = {gate.id: gate for gate in gates}`: on duplicate ids the
last gate wins, as in a Python dict comprehension. -/
def gateLookup (gates : List Gate) (node : String) : Option Gate :=
  gates.reverse.find? (fun g => g.id == node)

/-- The resolver's mutable state: the `values` memo dict (seeded with the
input assignment) plus the instrumentation log of evaluated gate ids. -/
structure EvalState where
  values : List (String × Bool)
  log : List String
deriving DecidableEq, Repr

/-- One step of `resolve(node_id)`: return the memoized value, fail on an
unknown node, or resolve the gate's inputs through `recur`, evaluate the
gate, and memoize the result under the gate's id (logging the evaluation). -/
def resolveStep (gates : List Gate)
    (recur : EvalState → List String → Except LogicError (List Bool × EvalState))
    (st : EvalState) (node : String) : Except LogicError (Bool × EvalState) :=
  match lookupVal st.values node with
  | some v => .ok (v, st)
  | none =>
    match gateLookup gates node with
    | none => .error (.unknownNode node)
    | some gate =>
      match recur st gate.inputs with
      | .error e => .error e
      | .ok (vs, st₁) =>
        match evaluate_gate gate.type vs with
        | .error e => .error e
        | .ok v => .ok (v, ⟨dictInsert st₁.values gate.id v, st₁.log ++ [gate.id]⟩)

/-- Resolve a list of node references left to right, threading the memo
state, with fuel consumed at each node (structural recursion on fuel). -/
def resolveMany (gates : List Gate) : Nat → EvalState → List String →
    Except LogicError (List Bool × EvalState)
  | _, st, [] => .ok ([], st)
  | 0, _, _ :: _ => .error .outOfFuel
  | fuel + 1, st, node :: rest =>
    match resolveStep gates (resolveMany gates fuel) st node with
    | .error e => .error e
    | .ok (v, st₁) =>
      match resolveMany gates fuel st₁ rest with
      | .error e => .error e
      | .ok (vs, st₂) => .ok (v :: vs, st₂)

/-- `resolve(node_id)` of the source, with fuel. -/
def resolve (gates : List Gate) : Nat → EvalState → String →
    Except LogicError (Bool × EvalState)
  | 0, _, _ => .error .outOfFuel
  | fuel + 1, st, node => resolveStep gates (resolveMany gates fuel) st node

/-- `evaluate_circuit(inputs, gates, output_gate, input_assignment)`:
seed the memo with a copy of the assignment, resolve the output node,
return only its value (the `inputs` parameter is unused, as in the source). -/
def evaluate_circuit (fuel : Nat) (inputs : List String) (gates : List Gate)
    (output_gate : String) (input_assignment : List (String × Bool)) :
    Except LogicError Bool :=
  match resolve gates fuel ⟨input_assignment, []⟩ output_gate with
  | .error e => .error e
  | .ok (v, _) => .ok v

/-- `dict(zip(inputs, assignment))`. -/
def dictOfZip (ks : List String) (vs : List Bool) : List (String × Bool) :=
  (ks.zip vs).foldl (fun d p => dictInsert d p.1 p.2) []

/-- `itertools.product([0, 1], repeat=n)`: all boolean n-tuples in binary
counter order, first coordinate most significant. -/
def product01 : Nat → List (List Bool)
  | 0 => [[]]
  | n + 1 =>
    ((product01 n).map (fun t => false :: t)) ++ ((product01 n).map (fun t => true :: t))

/-- The truth-table loop body chain: map a fallible function over a list,
aborting at the first error, as the Python `for` loop with `raise` does. -/
def mapExcept {α β : Type} (f : α → Except LogicError β) : List α → Except LogicError (List β)
  | [] => .ok []
  | a :: as =>
    match f a with
    | .error e => .error e
    | .ok b =>
      match mapExcept f as with
      | .error e => .error e
      | .ok bs => .ok (b :: bs)

/-- `compute_truth_table(inputs, gates, output_gate)`: reject an empty
input list, otherwise one row `{**mapping, "output": value}` per
assignment, in enumeration order. -/
def compute_truth_table (fuel : Nat) (inputs : List String) (gates : List Gate)
    (output_gate : String) : Except LogicError (List (List (String × Bool))) :=
  if inputs.isEmpty then .error .noInputsDeclared
  else
    mapExcept
      (fun assignment =>
        let mapping := dictOfZip inputs assignment
        match evaluate_circuit fuel inputs gates output_gate mapping with
        | .error e => .error e
        | .ok v => .ok (dictInsert mapping "output" v))
      (product01 inputs.length)

/-- The `n`-bit big-endian binary digits of `i`. -/
def natToBits : Nat → Nat → List Bool
  | 0, _ => []
  | n + 1, i => decide (2 ^ n ≤ i) :: natToBits n (i % 2 ^ n)

/-- The value of a big-endian bit string as a binary counter. -/
def bitsToNat : List Bool → Nat
  | [] => 0
  | b :: bs => (cond b 1 0) * 2 ^ bs.length + bitsToNat bs

/-- The observable outcome of one `evaluate_circuit` call, together with
the caller-supplied assignment as it stands after the call: the source
copies the assignment into a per-call memo (`values = dict(input_assignment)`)
and mutates only the copy, so the caller's mapping is returned unchanged. -/
structure CircuitCall where
  result : Except LogicError Bool
  callerAssignment : List (String × Bool)
  finalMemo : List (String × Bool)
deriving Repr

/-- `evaluate_circuit` seen as a call that also reports the caller's
mapping after the call and the per-call memo at its end. -/
def evaluate_circuit_call (fuel : Nat) (inputs : List String) (gates : List Gate)
    (output_gate : String) (input_assignment : List (String × Bool)) : CircuitCall :=
  match resolve gates fuel ⟨input_assignment, []⟩ output_gate with
  | .error e => ⟨.error e, input_assignment, input_assignment⟩
  | .ok (v, st) => ⟨.ok v, input_assignment, st.values⟩

/-- The instrumentation invariant: the log of evaluated gate ids has no
duplicates, and every logged gate is memoized in the values dict. -/
def LogInv (st : EvalState) : Prop :=
  st.log.Nodup ∧ ∀ g ∈ st.log, (lookupVal st.values g).isSome = true

/-- The diamond circuit of the spec's testable property: two gates sharing
the ancestor input `a`, both feeding a downstream AND gate. -/
def diamondGates : List Gate :=
  [⟨"g1", "NOT", ["a"]⟩, ⟨"g2", "BUFFER", ["a"]⟩, ⟨"g3", "AND", ["g1", "g2"]⟩]

/-- A topological rank witnessing that `diamondGates` is acyclic. -/
def diamondRank (s : String) : Nat :=
  if s = "g3" then 2 else if s = "g1" ∨ s = "g2" then 1 else 0

instance {ε α : Type} [DecidableEq ε] [DecidableEq α] : DecidableEq (Except ε α)
  | .error a, .error b =>
    if h : a = b then isTrue (by rw [h]) else isFalse (by intro hc; cases hc; exact h rfl)
  | .error _, .ok _ => isFalse (by intro h; cases h)
  | .ok _, .error _ => isFalse (by intro h; cases h)
  | .ok a, .ok b =>
    if h : a = b then isTrue (by rw [h]) else isFalse (by intro hc; cases hc; exact h rfl)

lemma lookupVal_dictInsert_self (d : List (String × Bool)) (k : String) (v : Bool) :
    lookupVal (dictInsert d k v) k = some v := by
  induction d with
  | nil => simp [dictInsert, lookupVal]
  | cons p ps ih =>
    by_cases h : p.1 = k
    · simp [dictInsert, lookupVal, h]
    · simp [dictInsert, lookupVal, h, ih]

lemma lookupVal_dictInsert_ne (d : List (String × Bool)) (k k' : String) (v : Bool)
    (h : k' ≠ k) : lookupVal (dictInsert d k v) k' = lookupVal d k' := by
  have h' : ¬(k = k') := fun hh => h hh.symm
  induction d with
  | nil => simp [dictInsert, lookupVal, h']
  | cons p ps ih =>
    by_cases hp : p.1 = k
    · simp [dictInsert, lookupVal, hp, h']
    · simp [dictInsert, lookupVal, hp, ih]

lemma isSome_lookupVal_dictInsert (d : List (String × Bool)) (k k' : String) (v : Bool)
    (h : (lookupVal d k').isSome = true) :
    (lookupVal (dictInsert d k v) k').isSome = true := by
  by_cases hk : k' = k
  · rw [hk, lookupVal_dictInsert_self]; rfl
  · rwa [lookupVal_dictInsert_ne _ _ _ _ hk]

lemma gateLookup_eq_some {gates : List Gate} {node : String} {g : Gate}
    (h : gateLookup gates node = some g) : g ∈ gates ∧ g.id = node := by
  have hmem := List.mem_of_find?_eq_some h
  have hpred := List.find?_some h
  rw [List.mem_reverse] at hmem
  exact ⟨hmem, by simpa using hpred⟩

lemma evaluate_gate_AND (vs : List Bool) :
    evaluate_gate "AND" vs = .ok (vs.all (fun b => b)) := rfl

lemma evaluate_gate_OR (vs : List Bool) :
    evaluate_gate "OR" vs = .ok (vs.any (fun b => b)) := rfl

lemma evaluate_gate_XOR (vs : List Bool) :
    evaluate_gate "XOR" vs = .ok (decide (vs.countP (fun b => b) % 2 = 1)) := rfl

lemma countP_id_eq_count_true (vs : List Bool) :
    vs.countP (fun b => b) = vs.count true := by
  induction vs with
  | nil => rfl
  | cons b bs ih => cases b <;> simp [List.countP_cons, List.count_cons, ih]

/-- C4: `evaluate_gate("AND", vs)` is true iff every element of `vs` is
true (so the empty sequence yields true) and `evaluate_gate("OR", vs)` is
true iff at least one element of `vs` is true (so the empty sequence
yields false). -/
theorem and_or_gate_semantics (vs : List Bool) :
    (evaluate_gate "AND" vs = .ok true ↔ ∀ b ∈ vs, b = true) ∧
    (evaluate_gate "OR" vs = .ok true ↔ ∃ b ∈ vs, b = true) ∧
    evaluate_gate "AND" [] = .ok true ∧
    evaluate_gate "OR" [] = .ok false := by
  refine ⟨?_, ?_, by decide, by decide⟩
  · rw [evaluate_gate_AND]
    simp [List.all_eq_true]
  · rw [evaluate_gate_OR]
    simp [List.any_eq_true]

/-- C5: `evaluate_gate("XOR", vs)` returns true iff the number of true
elements of `vs` is odd. -/
theorem xor_gate_parity (vs : List Bool) :
    evaluate_gate "XOR" vs = .ok true ↔ Odd (vs.count true) := by
  rw [evaluate_gate_XOR, countP_id_eq_count_true]
  simp [Nat.odd_iff]

/-- C6: `evaluate_gate("NOT", vs)` returns the negation of the single
element when `vs` has exactly one element, and fails with the invalid
arity error for every other length. -/
theorem not_gate_arity :
    (∀ v : Bool, evaluate_gate "NOT" [v] = .ok (!v)) ∧
    (∀ vs : List Bool, vs.length ≠ 1 → evaluate_gate "NOT" vs = .error .invalidArity) := by
  refine ⟨fun v => rfl, fun vs h => ?_⟩
  match vs with
  | [] => rfl
  | [v] => exact absurd rfl h
  | a :: b :: rest => rfl

theorem not_gate_arity_witness :
    (([] : List Bool).length ≠ 1 ∧
      evaluate_gate "NOT" [] = .error .invalidArity) ∧
    (([true, false] : List Bool).length ≠ 1 ∧
      evaluate_gate "NOT" [true, false] = .error .invalidArity) :=
  ⟨⟨by decide, not_gate_arity.2 [] (by decide)⟩,
   ⟨by decide, not_gate_arity.2 [true, false] (by decide)⟩⟩

/-- C7: `evaluate_gate` on kind OUTPUT or BUFFER succeeds on a non-empty
value sequence returning its last value, and fails with the missing input
error on the empty sequence. -/
theorem output_buffer_last_value :
    (∀ (vs : List Bool) (h : vs ≠ []),
      evaluate_gate "OUTPUT" vs = .ok (vs.getLast h) ∧
      evaluate_gate "BUFFER" vs = .ok (vs.getLast h)) ∧
    evaluate_gate "OUTPUT" [] = .error .missingInput ∧
    evaluate_gate "BUFFER" [] = .error .missingInput := by
  refine ⟨fun vs h => ?_, by decide, by decide⟩
  have hlast : vs.getLast? = some (vs.getLast h) := List.getLast?_eq_getLast vs h
  constructor
  · show (match vs.getLast? with
      | none => Except.error LogicError.missingInput
      | some v => Except.ok v) = Except.ok (vs.getLast h)
    rw [hlast]
  · show (match vs.getLast? with
      | none => Except.error LogicError.missingInput
      | some v => Except.ok v) = Except.ok (vs.getLast h)
    rw [hlast]

lemma mapExcept_ok_length {α β : Type} {f : α → Except LogicError β} {l : List α}
    {ys : List β} (h : mapExcept f l = .ok ys) : ys.length = l.length := by
  induction l generalizing ys with
  | nil =>
    simp only [mapExcept, Except.ok.injEq] at h
    subst h
    rfl
  | cons a as ih =>
    cases hfa : f a with
    | error e => simp only [mapExcept, hfa] at h; exact Except.noConfusion h
    | ok b =>
      cases hrest : mapExcept f as with
      | error e => simp only [mapExcept, hfa, hrest] at h; exact Except.noConfusion h
      | ok bs =>
        simp only [mapExcept, hfa, hrest, Except.ok.injEq] at h
        subst h
        simp [ih hrest]

lemma mapExcept_ok_get {α β : Type} {f : α → Except LogicError β} {l : List α}
    {ys : List β} (h : mapExcept f l = .ok ys) :
    ∀ (i : Nat) (hi : i < l.length) (hi' : i < ys.length),
      f (l.get ⟨i, hi⟩) = .ok (ys.get ⟨i, hi'⟩) := by
  induction l generalizing ys with
  | nil => intro i hi hi'; simp at hi
  | cons a as ih =>
    intro i hi hi'
    cases hfa : f a with
    | error e => simp only [mapExcept, hfa] at h; exact Except.noConfusion h
    | ok b =>
      cases hrest : mapExcept f as with
      | error e => simp only [mapExcept, hfa, hrest] at h; exact Except.noConfusion h
      | ok bs =>
        simp only [mapExcept, hfa, hrest, Except.ok.injEq] at h
        subst h
        match i with
        | 0 => simpa using hfa
        | Nat.succ j =>
          exact ih hrest j (by simpa using hi) (by simpa using hi')

lemma mapExcept_error {α β : Type} {f : α → Except LogicError β} {l : List α}
    {e : LogicError} (h : mapExcept f l = .error e) : ∃ a ∈ l, f a = .error e := by
  induction l with
  | nil => simp only [mapExcept] at h; exact Except.noConfusion h
  | cons a as ih =>
    cases hfa : f a with
    | error e' =>
      simp only [mapExcept, hfa, Except.error.injEq] at h
      subst h
      exact ⟨a, by simp, hfa⟩
    | ok b =>
      cases hrest : mapExcept f as with
      | error e' =>
        simp only [mapExcept, hfa, hrest, Except.error.injEq] at h
        subst h
        obtain ⟨x, hx, hfx⟩ := ih hrest
        exact ⟨x, by simp [hx], hfx⟩
      | ok bs => simp only [mapExcept, hfa, hrest] at h; exact Except.noConfusion h

lemma product01_length (n : Nat) : (product01 n).length = 2 ^ n := by
  induction n with
  | zero => rfl
  | succ n ih =>
    simp only [product01, List.length_append, List.length_map, ih]
    rw [Nat.pow_succ]
    omega

lemma bitsToNat_lt (bs : List Bool) : bitsToNat bs < 2 ^ bs.length := by
  induction bs with
  | nil => simp [bitsToNat]
  | cons b bs ih =>
    simp only [bitsToNat, List.length_cons, Nat.pow_succ]
    cases b <;> simp only [cond] <;> omega

lemma product01_eq (n : Nat) : product01 n = (List.range (2 ^ n)).map (natToBits n) := by
  induction n with
  | zero => rfl
  | succ n ih =>
    have h2 : 2 ^ (n + 1) = 2 ^ n + 2 ^ n := by rw [Nat.pow_succ]; omega
    rw [product01, ih, h2, List.range_add, List.map_append, List.map_map, List.map_map,
      List.map_map]
    congr 1
    · apply List.map_congr_left
      intro i hi
      rw [List.mem_range] at hi
      show false :: natToBits n i = natToBits (n + 1) i
      rw [natToBits]
      congr 1
      · simp [Nat.not_le.mpr hi]
      · rw [Nat.mod_eq_of_lt hi]
    · apply List.map_congr_left
      intro i hi
      rw [List.mem_range] at hi
      show true :: natToBits n i = natToBits (n + 1) (2 ^ n + i)
      rw [natToBits]
      congr 1
      · simp
      · rw [Nat.add_mod_left, Nat.mod_eq_of_lt hi]

lemma product01_get (n i : Nat) (hi : i < (product01 n).length) :
    (product01 n).get ⟨i, hi⟩ = natToBits n i := by
  have h := product01_eq n
  rw [List.get_eq_getElem, List.getElem_of_eq h]
  simp [List.getElem_map, List.getElem_range]

lemma natToBits_bitsToNat (bs : List Bool) :
    natToBits bs.length (bitsToNat bs) = bs := by
  induction bs with
  | nil => rfl
  | cons b bs ih =>
    have hlt := bitsToNat_lt bs
    simp only [List.length_cons, natToBits, bitsToNat]
    cases b
    · simp only [cond, Nat.zero_mul]
      congr 1
      · simp [Nat.not_le.mpr hlt]
      · rw [Nat.zero_add, Nat.mod_eq_of_lt hlt, ih]
    · simp only [cond, Nat.one_mul]
      congr 1
      · simp
      · rw [Nat.add_mod_left, Nat.mod_eq_of_lt hlt, ih]

theorem output_buffer_last_value_witness :
    ([false, true] ≠ ([] : List Bool)) ∧
    evaluate_gate "OUTPUT" [false, true] = .ok true ∧
    evaluate_gate "BUFFER" [false, true] = .ok true :=
  ⟨by decide,
   (output_buffer_last_value.1 [false, true] (by decide)).1,
   (output_buffer_last_value.1 [false, true] (by decide)).2⟩

lemma resolveMany_nil (gates : List Gate) (fuel : Nat) (st : EvalState) :
    resolveMany gates fuel st [] = .ok ([], st) := by
  cases fuel <;> rfl

lemma resolveMany_cons (gates : List Gate) (fuel : Nat) (st : EvalState)
    (node : String) (rest : List String) :
    resolveMany gates (fuel + 1) st (node :: rest) =
      match resolveStep gates (resolveMany gates fuel) st node with
      | .error e => .error e
      | .ok (v, st₁) =>
        match resolveMany gates fuel st₁ rest with
        | .error e => .error e
        | .ok (vs, st₂) => .ok (v :: vs, st₂) := rfl

lemma resolveStep_mono {gates : List Gate}
    {recur : EvalState → List String → Except LogicError (List Bool × EvalState)}
    (hrec : ∀ st nodes vs st', recur st nodes = .ok (vs, st') →
      ∀ k, (lookupVal st.values k).isSome = true → (lookupVal st'.values k).isSome = true)
    {st : EvalState} {node : String} {v : Bool} {st' : EvalState}
    (h : resolveStep gates recur st node = .ok (v, st')) :
    ∀ k, (lookupVal st.values k).isSome = true → (lookupVal st'.values k).isSome = true := by
  intro k hk
  cases hlv : lookupVal st.values node with
  | some w =>
    simp only [resolveStep, hlv, Except.ok.injEq, Prod.mk.injEq] at h
    rw [← h.2]
    exact hk
  | none =>
    cases hgl : gateLookup gates node with
    | none =>
      simp only [resolveStep, hlv, hgl] at h
      exact Except.noConfusion h
    | some gate =>
      cases hrc : recur st gate.inputs with
      | error e =>
        simp only [resolveStep, hlv, hgl, hrc] at h
        exact Except.noConfusion h
      | ok p =>
        obtain ⟨vs, st₁⟩ := p
        cases hev : evaluate_gate gate.type vs with
        | error e =>
          simp only [resolveStep, hlv, hgl, hrc, hev] at h
          exact Except.noConfusion h
        | ok w =>
          simp only [resolveStep, hlv, hgl, hrc, hev, Except.ok.injEq, Prod.mk.injEq] at h
          rw [← h.2]
          exact isSome_lookupVal_dictInsert _ _ _ _ (hrec st gate.inputs vs st₁ hrc k hk)

lemma resolveMany_mono {gates : List Gate} : ∀ (fuel : Nat) (st : EvalState)
    (nodes : List String) (vs : List Bool) (st' : EvalState),
    resolveMany gates fuel st nodes = .ok (vs, st') →
    ∀ k, (lookupVal st.values k).isSome = true → (lookupVal st'.values k).isSome = true := by
  intro fuel
  induction fuel with
  | zero =>
    intro st nodes vs st' h k hk
    cases nodes with
    | nil =>
      rw [resolveMany_nil] at h
      simp only [Except.ok.injEq, Prod.mk.injEq] at h
      rw [← h.2]
      exact hk
    | cons node rest => exact Except.noConfusion h
  | succ fuel ih =>
    intro st nodes vs st' h k hk
    cases nodes with
    | nil =>
      rw [resolveMany_nil] at h
      simp only [Except.ok.injEq, Prod.mk.injEq] at h
      rw [← h.2]
      exact hk
    | cons node rest =>
      rw [resolveMany_cons] at h
      cases hstep : resolveStep gates (resolveMany gates fuel) st node with
      | error e =>
        simp only [hstep] at h
        exact Except.noConfusion h
      | ok p =>
        obtain ⟨v₁, st₁⟩ := p
        cases hrest : resolveMany gates fuel st₁ rest with
        | error e =>
          simp only [hstep, hrest] at h
          exact Except.noConfusion h
        | ok q =>
          obtain ⟨vs₂, st₂⟩ := q
          simp only [hstep, hrest, Except.ok.injEq, Prod.mk.injEq] at h
          rw [← h.2]
          exact ih st₁ rest vs₂ st₂ hrest k (resolveStep_mono ih hstep k hk)

lemma resolve_mono {gates : List Gate} {fuel : Nat} {st : EvalState} {node : String}
    {v : Bool} {st' : EvalState} (h : resolve gates fuel st node = .ok (v, st')) :
    ∀ k, (lookupVal st.values k).isSome = true → (lookupVal st'.values k).isSome = true := by
  cases fuel with
  | zero => exact Except.noConfusion h
  | succ fuel => exact resolveStep_mono (fun st nodes => resolveMany_mono fuel st nodes) h

lemma resolveStep_rankLog {gates : List Gate} {rank : String → Nat}
    (hacyc : ∀ g ∈ gates, ∀ src ∈ g.inputs, (∃ g' ∈ gates, g'.id = src) → rank src < rank g.id)
    {recur : EvalState → List String → Except LogicError (List Bool × EvalState)}
    (hrec_rank : ∀ st nodes vs st', recur st nodes = .ok (vs, st') →
      ∀ k, (lookupVal st'.values k).isSome = true →
        (lookupVal st.values k).isSome = true ∨
        ((∃ g' ∈ gates, g'.id = k) ∧
          ∃ src ∈ nodes, (∃ g' ∈ gates, g'.id = src) ∧ rank k ≤ rank src))
    (hrec_log : ∀ st nodes vs st', recur st nodes = .ok (vs, st') → LogInv st → LogInv st')
    {st : EvalState} {node : String} {v : Bool} {st' : EvalState}
    (h : resolveStep gates recur st node = .ok (v, st')) :
    (∀ k, (lookupVal st'.values k).isSome = true →
      (lookupVal st.values k).isSome = true ∨
      ((∃ g' ∈ gates, g'.id = k) ∧ (∃ g' ∈ gates, g'.id = node) ∧ rank k ≤ rank node)) ∧
    (LogInv st → LogInv st') := by
  cases hlv : lookupVal st.values node with
  | some w =>
    simp only [resolveStep, hlv, Except.ok.injEq, Prod.mk.injEq] at h
    rw [← h.2]
    exact ⟨fun k hk => Or.inl hk, fun hi => hi⟩
  | none =>
    cases hgl : gateLookup gates node with
    | none =>
      simp only [resolveStep, hlv, hgl] at h
      exact Except.noConfusion h
    | some gate =>
      cases hrc : recur st gate.inputs with
      | error e =>
        simp only [resolveStep, hlv, hgl, hrc] at h
        exact Except.noConfusion h
      | ok p =>
        obtain ⟨vs, st₁⟩ := p
        cases hev : evaluate_gate gate.type vs with
        | error e =>
          simp only [resolveStep, hlv, hgl, hrc, hev] at h
          exact Except.noConfusion h
        | ok w =>
          simp only [resolveStep, hlv, hgl, hrc, hev, Except.ok.injEq, Prod.mk.injEq] at h
          obtain ⟨hgmem, hgid⟩ := gateLookup_eq_some hgl
          have hnodeGate : ∃ g' ∈ gates, g'.id = node := ⟨gate, hgmem, hgid⟩
          have hnode₁ : lookupVal st₁.values node = none := by
            cases hcase : lookupVal st₁.values node with
            | none => rfl
            | some u =>
              exfalso
              have hsome : (lookupVal st₁.values node).isSome = true := by rw [hcase]; rfl
              rcases hrec_rank st gate.inputs vs st₁ hrc node hsome with hin |
                ⟨_, src, hsrc, hsrcGate, hle⟩
              · rw [hlv] at hin
                exact Bool.noConfusion hin
              · have hlt := hacyc gate hgmem src hsrc hsrcGate
                rw [hgid] at hlt
                omega
          rw [← h.2]
          constructor
          · intro k hk
            by_cases hkeq : k = gate.id
            · subst hkeq
              exact Or.inr ⟨⟨gate, hgmem, rfl⟩, hnodeGate, by rw [hgid]⟩
            · have hk' : (lookupVal st₁.values k).isSome = true := by
                have hv : (⟨dictInsert st₁.values gate.id w, st₁.log ++ [gate.id]⟩ :
                    EvalState).values = dictInsert st₁.values gate.id w := rfl
                rw [hv, lookupVal_dictInsert_ne _ _ _ _ hkeq] at hk
                exact hk
              rcases hrec_rank st gate.inputs vs st₁ hrc k hk' with hin |
                ⟨hkGate, src, hsrc, hsrcGate, hle⟩
              · exact Or.inl hin
              · refine Or.inr ⟨hkGate, hnodeGate, ?_⟩
                have hlt := hacyc gate hgmem src hsrc hsrcGate
                rw [hgid] at hlt
                omega
          · intro hinv
            obtain ⟨hnd, hmem⟩ := hrec_log st gate.inputs vs st₁ hrc hinv
            have hnotin : gate.id ∉ st₁.log := by
              intro hmem'
              have hsome := hmem _ hmem'
              rw [hgid, hnode₁] at hsome
              exact Bool.noConfusion hsome
            constructor
            · rw [show (⟨dictInsert st₁.values gate.id w, st₁.log ++ [gate.id]⟩ :
                  EvalState).log = st₁.log ++ [gate.id] from rfl, List.nodup_append]
              exact ⟨hnd, List.nodup_singleton _,
                fun a ha hb => hnotin ((List.mem_singleton.mp hb) ▸ ha)⟩
            · intro g hg
              rw [show (⟨dictInsert st₁.values gate.id w, st₁.log ++ [gate.id]⟩ :
                  EvalState).log = st₁.log ++ [gate.id] from rfl, List.mem_append,
                List.mem_singleton] at hg
              rcases hg with hg | hg
              · exact isSome_lookupVal_dictInsert _ _ _ _ (hmem g hg)
              · subst hg
                show (lookupVal (dictInsert st₁.values gate.id w) gate.id).isSome = true
                rw [lookupVal_dictInsert_self]
                rfl

lemma resolveMany_rankLog {gates : List Gate} {rank : String → Nat}
    (hacyc : ∀ g ∈ gates, ∀ src ∈ g.inputs, (∃ g' ∈ gates, g'.id = src) → rank src < rank g.id) :
    ∀ (fuel : Nat) (st : EvalState) (nodes : List String) (vs : List Bool) (st' : EvalState),
    resolveMany gates fuel st nodes = .ok (vs, st') →
    (∀ k, (lookupVal st'.values k).isSome = true →
      (lookupVal st.values k).isSome = true ∨
      ((∃ g' ∈ gates, g'.id = k) ∧
        ∃ src ∈ nodes, (∃ g' ∈ gates, g'.id = src) ∧ rank k ≤ rank src)) ∧
    (LogInv st → LogInv st') := by
  intro fuel
  induction fuel with
  | zero =>
    intro st nodes vs st' h
    cases nodes with
    | nil =>
      rw [resolveMany_nil] at h
      simp only [Except.ok.injEq, Prod.mk.injEq] at h
      rw [← h.2]
      exact ⟨fun k hk => Or.inl hk, fun hi => hi⟩
    | cons node rest => exact Except.noConfusion h
  | succ fuel ih =>
    intro st nodes vs st' h
    cases nodes with
    | nil =>
      rw [resolveMany_nil] at h
      simp only [Except.ok.injEq, Prod.mk.injEq] at h
      rw [← h.2]
      exact ⟨fun k hk => Or.inl hk, fun hi => hi⟩
    | cons node rest =>
      rw [resolveMany_cons] at h
      cases hstep : resolveStep gates (resolveMany gates fuel) st node with
      | error e =>
        simp only [hstep] at h
        exact Except.noConfusion h
      | ok p =>
        obtain ⟨v₁, st₁⟩ := p
        cases hrest : resolveMany gates fuel st₁ rest with
        | error e =>
          simp only [hstep, hrest] at h
          exact Except.noConfusion h
        | ok q =>
          obtain ⟨vs₂, st₂⟩ := q
          simp only [hstep, hrest, Except.ok.injEq, Prod.mk.injEq] at h
          rw [← h.2]
          have hstepL := resolveStep_rankLog hacyc
            (fun st nodes vs st' hh => (ih st nodes vs st' hh).1)
            (fun st nodes vs st' hh => (ih st nodes vs st' hh).2) hstep
          have hrestL := ih st₁ rest vs₂ st₂ hrest
          constructor
          · intro k hk
            rcases hrestL.1 k hk with h1 | ⟨hkG, src, hsrc, hsG, hle⟩
            · rcases hstepL.1 k h1 with h2 | ⟨hkG, hnG, hle⟩
              · exact Or.inl h2
              · exact Or.inr ⟨hkG, node, List.mem_cons_self _ _, hnG, hle⟩
            · exact Or.inr ⟨hkG, src, List.mem_cons_of_mem _ hsrc, hsG, hle⟩
          · exact fun hi => hrestL.2 (hstepL.2 hi)

/-- C3: during a single successful top-level `evaluate_circuit` resolution
of an acyclic circuit (acyclicity witnessed by a rank function decreasing
from each gate to its gate inputs), each gate is evaluated at most once:
the gate evaluator is applied and the result memoized under the gate's id
exactly at the log points, and the final log holds no duplicate gate id,
even when a gate feeds several downstream gates. -/
theorem resolve_memoization_no_reevaluation (gates : List Gate) (rank : String → Nat)
    (hacyc : ∀ g ∈ gates, ∀ src ∈ g.inputs, (∃ g' ∈ gates, g'.id = src) → rank src < rank g.id)
    (fuel : Nat) (input_assignment : List (String × Bool)) (out : String)
    (v : Bool) (st' : EvalState)
    (h : resolve gates fuel ⟨input_assignment, []⟩ out = .ok (v, st')) :
    st'.log.Nodup := by
  cases fuel with
  | zero => exact Except.noConfusion h
  | succ fuel =>
    have hstepL := resolveStep_rankLog hacyc
      (fun st nodes vs st' hh => (resolveMany_rankLog hacyc fuel st nodes vs st' hh).1)
      (fun st nodes vs st' hh => (resolveMany_rankLog hacyc fuel st nodes vs st' hh).2) h
    refine (hstepL.2 ⟨List.nodup_nil, ?_⟩).1
    intro g hg
    exact absurd hg (List.not_mem_nil g)

theorem resolve_memoization_no_reevaluation_witness :
    resolve diamondGates 4 ⟨[("a", true)], []⟩ "g3" =
      .ok (false, ⟨[("a", true), ("g1", false), ("g2", true), ("g3", false)],
        ["g1", "g2", "g3"]⟩) ∧
    (⟨[("a", true), ("g1", false), ("g2", true), ("g3", false)],
      ["g1", "g2", "g3"]⟩ : EvalState).log.Nodup :=
  ⟨by decide,
   resolve_memoization_no_reevaluation diamondGates diamondRank (by decide) 4
     [("a", true)] "g3" false
     ⟨[("a", true), ("g1", false), ("g2", true), ("g3", false)], ["g1", "g2", "g3"]⟩
     (by decide)⟩

lemma evaluate_gate_ne_noInputs (t : String) (vs : List Bool)
    (h : evaluate_gate t vs = .error .noInputsDeclared) : False := by
  simp only [evaluate_gate] at h
  split_ifs at h
  all_goals try (injection h with h1; exact LogicError.noConfusion h1)
  · rcases vs with _ | ⟨a, _ | ⟨b, rest⟩⟩
    · injection h with h1; exact LogicError.noConfusion h1
    · exact Except.noConfusion h
    · injection h with h1; exact LogicError.noConfusion h1
  · rcases hgl : vs.getLast? with _ | w
    · rw [hgl] at h
      injection h with h1
      exact LogicError.noConfusion h1
    · rw [hgl] at h
      exact Except.noConfusion h

lemma resolveStep_ne_noInputs {gates : List Gate}
    {recur : EvalState → List String → Except LogicError (List Bool × EvalState)}
    (hrec : ∀ st nodes, recur st nodes ≠ .error .noInputsDeclared)
    (st : EvalState) (node : String) :
    resolveStep gates recur st node ≠ .error .noInputsDeclared := by
  intro h
  cases hlv : lookupVal st.values node with
  | some w =>
    simp only [resolveStep, hlv] at h
    exact Except.noConfusion h
  | none =>
    cases hgl : gateLookup gates node with
    | none =>
      simp only [resolveStep, hlv, hgl] at h
      injection h with h1
      exact LogicError.noConfusion h1
    | some gate =>
      cases hrc : recur st gate.inputs with
      | error e =>
        simp only [resolveStep, hlv, hgl, hrc] at h
        injection h with h1
        subst h1
        exact hrec st gate.inputs hrc
      | ok p =>
        obtain ⟨vs, st₁⟩ := p
        cases hev : evaluate_gate gate.type vs with
        | error e =>
          simp only [resolveStep, hlv, hgl, hrc, hev] at h
          injection h with h1
          subst h1
          exact evaluate_gate_ne_noInputs gate.type vs hev
        | ok w =>
          simp only [resolveStep, hlv, hgl, hrc, hev] at h
          exact Except.noConfusion h

lemma resolveMany_ne_noInputs {gates : List Gate} : ∀ (fuel : Nat) (st : EvalState)
    (nodes : List String), resolveMany gates fuel st nodes ≠ .error .noInputsDeclared := by
  intro fuel
  induction fuel with
  | zero =>
    intro st nodes h
    cases nodes with
    | nil =>
      rw [resolveMany_nil] at h
      exact Except.noConfusion h
    | cons node rest =>
      injection h with h1
      exact LogicError.noConfusion h1
  | succ fuel ih =>
    intro st nodes h
    cases nodes with
    | nil =>
      rw [resolveMany_nil] at h
      exact Except.noConfusion h
    | cons node rest =>
      rw [resolveMany_cons] at h
      cases hstep : resolveStep gates (resolveMany gates fuel) st node with
      | error e =>
        simp only [hstep] at h
        injection h with h1
        subst h1
        exact resolveStep_ne_noInputs (fun st nodes => ih st nodes) st node hstep
      | ok p =>
        obtain ⟨v₁, st₁⟩ := p
        cases hrest : resolveMany gates fuel st₁ rest with
        | error e =>
          simp only [hstep, hrest] at h
          injection h with h1
          subst h1
          exact ih st₁ rest hrest
        | ok q =>
          obtain ⟨vs₂, st₂⟩ := q
          simp only [hstep, hrest] at h
          exact Except.noConfusion h

lemma resolve_ne_noInputs {gates : List Gate} (fuel : Nat) (st : EvalState) (node : String) :
    resolve gates fuel st node ≠ .error .noInputsDeclared := by
  cases fuel with
  | zero =>
    intro h
    injection h with h1
    exact LogicError.noConfusion h1
  | succ fuel =>
    exact resolveStep_ne_noInputs (fun st nodes => resolveMany_ne_noInputs fuel st nodes) st node

lemma evaluate_circuit_ne_noInputs (fuel : Nat) (inputs : List String) (gates : List Gate)
    (out : String) (m : List (String × Bool)) :
    evaluate_circuit fuel inputs gates out m ≠ .error .noInputsDeclared := by
  intro h
  cases hres : resolve gates fuel ⟨m, []⟩ out with
  | error e =>
    simp only [evaluate_circuit, hres] at h
    injection h with h1
    subst h1
    exact resolve_ne_noInputs fuel ⟨m, []⟩ out hres
  | ok p =>
    obtain ⟨v, st'⟩ := p
    simp only [evaluate_circuit, hres] at h
    exact Except.noConfusion h

lemma compute_truth_table_row {fuel : Nat} {inputs : List String} {gates : List Gate}
    {out : String} {rows : List (List (String × Bool))}
    (h : compute_truth_table fuel inputs gates out = .ok rows) :
    rows.length = 2 ^ inputs.length ∧
    ∀ (i : Nat) (hi : i < rows.length), ∃ v,
      evaluate_circuit fuel inputs gates out
        (dictOfZip inputs (natToBits inputs.length i)) = .ok v ∧
      rows.get ⟨i, hi⟩ =
        dictInsert (dictOfZip inputs (natToBits inputs.length i)) "output" v := by
  by_cases he : inputs.isEmpty
  · rw [compute_truth_table, if_pos he] at h
    exact Except.noConfusion h
  · rw [compute_truth_table, if_neg he] at h
    have hlen := mapExcept_ok_length h
    rw [product01_length] at hlen
    refine ⟨hlen, ?_⟩
    intro i hi
    have hi' : i < (product01 inputs.length).length := by
      rw [product01_length]
      omega
    have hpt := mapExcept_ok_get h i hi' hi
    rw [product01_get] at hpt
    cases hev : evaluate_circuit fuel inputs gates out
        (dictOfZip inputs (natToBits inputs.length i)) with
    | error e =>
      simp only [hev] at hpt
      exact Except.noConfusion hpt
    | ok v =>
      simp only [hev, Except.ok.injEq] at hpt
      exact ⟨v, rfl, hpt.symm⟩

/-- C1: `compute_truth_table` enumerates all `2 ^ n` assignments over the
declared inputs in binary counter order, the first declared input being the
most significant bit: whenever it succeeds, row `i` is the row of the
assignment given by the `n`-bit big-endian digits of `i` together with its
resolved output; and the concrete XOR example yields exactly its four rows
in that order. -/
theorem truth_table_enumeration_order :
    (∀ (fuel : Nat) (inputs : List String) (gates : List Gate) (out : String)
        (rows : List (List (String × Bool))),
      compute_truth_table fuel inputs gates out = .ok rows →
      rows.length = 2 ^ inputs.length ∧
      ∀ (i : Nat) (hi : i < rows.length), ∃ v,
        evaluate_circuit fuel inputs gates out
          (dictOfZip inputs (natToBits inputs.length i)) = .ok v ∧
        rows.get ⟨i, hi⟩ =
          dictInsert (dictOfZip inputs (natToBits inputs.length i)) "output" v) ∧
    compute_truth_table 4 ["a", "b"] [⟨"g1", "XOR", ["a", "b"]⟩] "g1" =
      .ok [[("a", false), ("b", false), ("output", false)],
           [("a", false), ("b", true), ("output", true)],
           [("a", true), ("b", false), ("output", true)],
           [("a", true), ("b", true), ("output", false)]] :=
  ⟨fun _ _ _ _ _ h => compute_truth_table_row h, by decide⟩

theorem truth_table_enumeration_order_witness :
    compute_truth_table 4 ["a", "b"] [⟨"g1", "XOR", ["a", "b"]⟩] "g1" =
      .ok [[("a", false), ("b", false), ("output", false)],
           [("a", false), ("b", true), ("output", true)],
           [("a", true), ("b", false), ("output", true)],
           [("a", true), ("b", true), ("output", false)]] ∧
    ([[("a", false), ("b", false), ("output", false)],
      [("a", false), ("b", true), ("output", true)],
      [("a", true), ("b", false), ("output", true)],
      [("a", true), ("b", true), ("output", false)]] :
        List (List (String × Bool))).length = 2 ^ (["a", "b"] : List String).length :=
  ⟨by decide,
   (truth_table_enumeration_order.1 4 ["a", "b"] [⟨"g1", "XOR", ["a", "b"]⟩] "g1"
     [[("a", false), ("b", false), ("output", false)],
      [("a", false), ("b", true), ("output", true)],
      [("a", true), ("b", false), ("output", true)],
      [("a", true), ("b", true), ("output", false)]] (by decide)).1⟩

/-- C2: for every circuit and every boolean assignment to the declared
inputs, whenever `compute_truth_table` returns a table, the row indexed by
the assignment's binary-counter value carries under its `"output"` key
exactly the value `evaluate_circuit` returns for that same assignment. -/
theorem truth_table_round_trip (fuel : Nat) (inputs : List String) (gates : List Gate)
    (out : String) (rows : List (List (String × Bool))) (assignment : List Bool)
    (h : compute_truth_table fuel inputs gates out = .ok rows)
    (hlen : assignment.length = inputs.length) :
    ∃ (hi : bitsToNat assignment < rows.length) (v : Bool),
      evaluate_circuit fuel inputs gates out (dictOfZip inputs assignment) = .ok v ∧
      lookupVal (rows.get ⟨bitsToNat assignment, hi⟩) "output" = some v := by
  obtain ⟨hl, hrow⟩ := compute_truth_table_row h
  have hi : bitsToNat assignment < rows.length := by
    rw [hl, ← hlen]
    exact bitsToNat_lt assignment
  obtain ⟨v, hev, heq⟩ := hrow (bitsToNat assignment) hi
  have hbits : natToBits inputs.length (bitsToNat assignment) = assignment := by
    rw [← hlen]
    exact natToBits_bitsToNat assignment
  rw [hbits] at hev heq
  exact ⟨hi, v, hev, by rw [heq, lookupVal_dictInsert_self]⟩

theorem truth_table_round_trip_witness :
    ∃ (hi : bitsToNat [true, false] <
        ([[("a", false), ("b", false), ("output", false)],
          [("a", false), ("b", true), ("output", true)],
          [("a", true), ("b", false), ("output", true)],
          [("a", true), ("b", true), ("output", false)]] :
            List (List (String × Bool))).length) (v : Bool),
      evaluate_circuit 4 ["a", "b"] [⟨"g1", "XOR", ["a", "b"]⟩] "g1"
        (dictOfZip ["a", "b"] [true, false]) = .ok v ∧
      lookupVal
        (([[("a", false), ("b", false), ("output", false)],
           [("a", false), ("b", true), ("output", true)],
           [("a", true), ("b", false), ("output", true)],
           [("a", true), ("b", true), ("output", false)]] :
             List (List (String × Bool))).get ⟨bitsToNat [true, false], hi⟩)
        "output" = some v :=
  truth_table_round_trip 4 ["a", "b"] [⟨"g1", "XOR", ["a", "b"]⟩] "g1"
    [[("a", false), ("b", false), ("output", false)],
     [("a", false), ("b", true), ("output", true)],
     [("a", true), ("b", false), ("output", true)],
     [("a", true), ("b", true), ("output", false)]] [true, false] (by decide) (by decide)

/-- C8: resolving a node id that is neither present in the assignment/memo
map nor the id of any gate fails with `UnknownNode` naming that id, both
for a bare `resolve` call and for `evaluate_circuit` on such an output
node. -/
theorem unknown_node_error (gates : List Gate) (node : String) (fuel : Nat)
    (hgate : ∀ g ∈ gates, g.id ≠ node) :
    (∀ st : EvalState, lookupVal st.values node = none →
      resolve gates (fuel + 1) st node = .error (.unknownNode node)) ∧
    (∀ (inputs : List String) (input_assignment : List (String × Bool)),
      lookupVal input_assignment node = none →
      evaluate_circuit (fuel + 1) inputs gates node input_assignment =
        .error (.unknownNode node)) := by
  have hgl : gateLookup gates node = none := by
    unfold gateLookup
    rw [List.find?_eq_none]
    intro g hgm
    rw [List.mem_reverse] at hgm
    simp only [beq_iff_eq]
    exact hgate g hgm
  have hres : ∀ st : EvalState, lookupVal st.values node = none →
      resolve gates (fuel + 1) st node = .error (.unknownNode node) := by
    intro st hlv
    simp only [resolve, resolveStep, hlv, hgl]
  refine ⟨hres, ?_⟩
  intro inputs input_assignment hm
  simp only [evaluate_circuit, hres ⟨input_assignment, []⟩ hm]

theorem unknown_node_error_witness :
    resolve [Gate.mk "g1" "AND" []] 1 ⟨[("a", true)], []⟩ "out9" =
      .error (.unknownNode "out9") ∧
    evaluate_circuit 1 ["a"] [Gate.mk "g1" "AND" []] "out9" [("a", true)] =
      .error (.unknownNode "out9") :=
  ⟨(unknown_node_error [Gate.mk "g1" "AND" []] "out9" 0 (by decide)).1
      ⟨[("a", true)], []⟩ (by decide),
   (unknown_node_error [Gate.mk "g1" "AND" []] "out9" 0 (by decide)).2
      ["a"] [("a", true)] (by decide)⟩

/-- C9: `compute_truth_table` fails with `NoInputsDeclared` exactly when
the declared input list is empty, and on a non-empty input list where no
resolution fails it returns exactly `2 ^ |inputs|` rows. -/
theorem no_inputs_declared_iff :
    (∀ (fuel : Nat) (gates : List Gate) (out : String),
      compute_truth_table fuel [] gates out = .error .noInputsDeclared) ∧
    (∀ (fuel : Nat) (inputs : List String) (gates : List Gate) (out : String),
      inputs ≠ [] →
      compute_truth_table fuel inputs gates out ≠ .error .noInputsDeclared) ∧
    (∀ (fuel : Nat) (inputs : List String) (gates : List Gate) (out : String)
        (rows : List (List (String × Bool))),
      inputs ≠ [] → compute_truth_table fuel inputs gates out = .ok rows →
      rows.length = 2 ^ inputs.length) := by
  refine ⟨fun fuel gates out => rfl, ?_, ?_⟩
  · intro fuel inputs gates out hne h
    have he : inputs.isEmpty = false := by
      cases inputs with
      | nil => exact absurd rfl hne
      | cons a as => rfl
    rw [compute_truth_table, if_neg (by simp [he])] at h
    obtain ⟨a, _, hfa⟩ := mapExcept_error h
    cases hev : evaluate_circuit fuel inputs gates out (dictOfZip inputs a) with
    | error e =>
      simp only [hev] at hfa
      injection hfa with h1
      subst h1
      exact evaluate_circuit_ne_noInputs fuel inputs gates out (dictOfZip inputs a) hev
    | ok v =>
      simp only [hev] at hfa
      exact Except.noConfusion hfa
  · intro fuel inputs gates out rows hne h
    exact (compute_truth_table_row h).1

theorem no_inputs_declared_iff_witness :
    compute_truth_table 3 [] [Gate.mk "g" "BUFFER" ["a"]] "g" =
      .error .noInputsDeclared ∧
    (["a"] ≠ ([] : List String)) ∧
    compute_truth_table 3 ["a"] [Gate.mk "g" "BUFFER" ["a"]] "g" ≠
      .error .noInputsDeclared ∧
    ([[("a", false), ("output", false)], [("a", true), ("output", true)]] :
      List (List (String × Bool))).length = 2 ^ (["a"] : List String).length :=
  ⟨no_inputs_declared_iff.1 3 [Gate.mk "g" "BUFFER" ["a"]] "g",
   by decide,
   no_inputs_declared_iff.2.1 3 ["a"] [Gate.mk "g" "BUFFER" ["a"]] "g" (by decide),
   no_inputs_declared_iff.2.2 3 ["a"] [Gate.mk "g" "BUFFER" ["a"]] "g"
     [[("a", false), ("output", false)], [("a", true), ("output", true)]]
     (by decide) (by decide)⟩

/-- C10: an `evaluate_circuit` call never mutates the caller-supplied
assignment: the call leaves the caller's mapping exactly as supplied, its
result is computed by resolving from a per-call copy seeded with that
mapping, and memoized gate values are recorded only in the per-call memo,
which extends (never drops) the entries of the supplied assignment. -/
theorem evaluate_circuit_frame (fuel : Nat) (inputs : List String) (gates : List Gate)
    (out : String) (input_assignment : List (String × Bool)) :
    (evaluate_circuit_call fuel inputs gates out input_assignment).callerAssignment =
      input_assignment ∧
    (evaluate_circuit_call fuel inputs gates out input_assignment).result =
      evaluate_circuit fuel inputs gates out input_assignment ∧
    (∀ (v : Bool) (st' : EvalState),
      resolve gates fuel ⟨input_assignment, []⟩ out = .ok (v, st') →
      (evaluate_circuit_call fuel inputs gates out input_assignment).finalMemo =
        st'.values ∧
      ∀ k, (lookupVal input_assignment k).isSome = true →
        (lookupVal st'.values k).isSome = true) := by
  refine ⟨?_, ?_, ?_⟩
  · cases hres : resolve gates fuel ⟨input_assignment, []⟩ out with
    | error e => simp only [evaluate_circuit_call, hres]
    | ok p =>
      obtain ⟨v, st'⟩ := p
      simp only [evaluate_circuit_call, hres]
  · cases hres : resolve gates fuel ⟨input_assignment, []⟩ out with
    | error e => simp only [evaluate_circuit_call, evaluate_circuit, hres]
    | ok p =>
      obtain ⟨v, st'⟩ := p
      simp only [evaluate_circuit_call, evaluate_circuit, hres]
  · intro v st' hres
    refine ⟨by simp only [evaluate_circuit_call, hres], ?_⟩
    exact fun k hk => resolve_mono hres k hk

theorem evaluate_circuit_frame_witness :
    (evaluate_circuit_call 4 ["a"] diamondGates "g3" [("a", true)]).callerAssignment =
      [("a", true)] ∧
    (evaluate_circuit_call 4 ["a"] diamondGates "g3" [("a", true)]).finalMemo =
      [("a", true), ("g1", false), ("g2", true), ("g3", false)] ∧
    (lookupVal [("a", true), ("g1", false), ("g2", true), ("g3", false)] "a").isSome =
      true :=
  ⟨(evaluate_circuit_frame 4 ["a"] diamondGates "g3" [("a", true)]).1,
   ((evaluate_circuit_frame 4 ["a"] diamondGates "g3" [("a", true)]).2.2 false
     ⟨[("a", true), ("g1", false), ("g2", true), ("g3", false)], ["g1", "g2", "g3"]⟩
     (by decide)).1,
   ((evaluate_circuit_frame 4 ["a"] diamondGates "g3" [("a", true)]).2.2 false
     ⟨[("a", true), ("g1", false), ("g2", true), ("g3", false)], ["g1", "g2", "g3"]⟩
     (by decide)).2 "a" (by decide)⟩

end SynLogic
